import Mathlib

/-!
Shallow embedding of the markup-extraction functions of `snpedia.py`
(repository widdowquinn/23andMe).  Text is modelled as a list of
characters; each regular expression of the source is modelled by an
explicit scanner that follows the semantics of Python 2.7's `re` module
(leftmost, non-overlapping matches; greedy or lazy exactly as each
pattern is written; lookbehind and lookahead are zero-width).  The
diagnostic `print` statements of the source are modelled by a boolean
flag in the result, and the `ValueError` that the two-way unpacking
`g, b = gt.split('=')` can raise is modelled with `Except`.
-/

namespace Snpedia

/-- Whitespace characters of Python's `str.strip()` and of the regex class
`\s` (ASCII, as in Python 2 without `re.UNICODE`). -/
def pySpace (c : Char) : Bool :=
  c = ' ' || c = '\t' || c = '\n' || c = '\r' || c = '\x0b' || c = '\x0c'

/-- Digits `[0-9]`, the character class of the PMID patterns. -/
def pyDigit (c : Char) : Bool :=
  '0' ≤ c && c ≤ '9'

/-- Embedding of `text.replace('\n', '')`. -/
def stripNL (s : List Char) : List Char := s.filter (fun c => c != '\n')

/-- Does the pattern occur as a prefix of the text? -/
def startsWith : List Char → List Char → Bool
  | [], _ => true
  | _ :: _, [] => false
  | p :: ps, c :: cs => decide (p = c) && startsWith ps cs

/-- Is there a suffix of the text satisfying `q`?  (Every position of the
text is tried, including the end-of-text position.) -/
def anyPos (q : List Char → Bool) : List Char → Bool
  | [] => q []
  | c :: t => q (c :: t) || anyPos q t

/-- Does the pattern occur as a contiguous substring of the text? -/
def containsSub (pat : List Char) (s : List Char) : Bool :=
  anyPos (fun v => startsWith pat v) s

/-- Embedding of Python's `str.split(sep)` for a one-character separator:
split on every occurrence, keeping empty pieces. -/
def splitChar (sep : Char) : List Char → List (List Char)
  | [] => [[]]
  | c :: t =>
    if c = sep then [] :: splitChar sep t
    else
      match splitChar sep t with
      | h :: r => (c :: h) :: r
      | [] => [[c]]

/-- Embedding of Python's `str.strip()`: drop whitespace at both ends. -/
def pyStrip (s : List Char) : List Char :=
  ((s.dropWhile pySpace).reverse.dropWhile pySpace).reverse

/-- Split the text at the first occurrence of the doubled character
`[x, x]`: `splitTwo x s = some (a, b)` means `s = a ++ [x, x] ++ b` and no
doubled `x` starts earlier.  This is the leftmost match of the doubled
brace in the source's regexes. -/
def splitTwo (x : Char) : List Char → Option (List Char × List Char)
  | [] => none
  | [_] => none
  | c :: d :: rest =>
    if c = x ∧ d = x then some ([], rest)
    else
      match splitTwo x (d :: rest) with
      | some (a, b) => some (c :: a, b)
      | none => none

/-- The two closing braces that end a template block. -/
def closeBraces : List Char := '\x7d' :: '\x7d' :: []

/-- The prefixes produced by `splitTwo x`: no doubled `x` inside and not
ending in `x` (the leftmost-match property guarantees both). -/
def freeOf (x : Char) : List Char → Bool
  | [] => true
  | [c] => decide (c ≠ x)
  | c :: d :: rest => decide (¬(c = x ∧ d = x)) && freeOf x (d :: rest)

/-! ### Markup cleaner (`clean_mediawiki_markup`) -/

/-- Step 1 of the cleaner: `text.replace('[','').replace(']','')`. -/
def stripBrackets (s : List Char) : List Char :=
  s.filter (fun c => !(c == '[') && !(c == ']'))

/-- After the closing braces of a boundary: the maximal whitespace run
(greedy `\s*`; a shorter run is followed by a whitespace character, never
by an opening brace) followed by two opening braces. -/
def openAfterWs (rest : List Char) : Option (List Char) :=
  match rest.dropWhile pySpace with
  | d1 :: d2 :: r => if d1 = '\x7b' ∧ d2 = '\x7b' then some r else none
  | _ => none

/-- Match of the pattern two-closing-braces, `\s*`, two-opening-braces at
the head of the text, returning the remainder after the match. -/
def matchBoundary : List Char → Option (List Char)
  | c1 :: c2 :: rest =>
    if c1 = '\x7d' ∧ c2 = '\x7d' then openAfterWs rest else none
  | _ => none

/-- Leftmost occurrence of the boundary pattern: `some (a, r)` means the
text is `a`, then the matched boundary, then `r`. -/
def findBoundary : List Char → Option (List Char × List Char)
  | [] => none
  | c :: t =>
    match matchBoundary (c :: t) with
    | some r => some ([], r)
    | none =>
      match findBoundary t with
      | some (a, r) => some (c :: a, r)
      | none => none

/-- Step 2 of the cleaner: one pass of `re.subn('\}\}\s*\{\{|', '', text)`.
The empty right alternative of that pattern only ever replaces an empty
match by the empty string, so the pass is equivalent to deleting each
leftmost boundary occurrence and continuing after it.  The fuel is an
upper bound on the number of matches; each match consumes at least four
characters, so the length of the text is always sufficient fuel. -/
def collapseAux : Nat → List Char → List Char
  | 0, s => s
  | fuel + 1, s =>
    match findBoundary s with
    | none => s
    | some (a, r) => a ++ collapseAux fuel r

/-- Step 3 of the cleaner: one pass of
`re.subn('\{\{.*?\}\}', '', text, flags=re.DOTALL)`.  The leftmost match
starts at the first doubled opening brace and ends at the first doubled
closing brace after it (lazy `.*?`); with `DOTALL` the span may cross
newlines, which the character-list model allows anyway.  If the first
doubled opening brace has no doubled closing brace after it, no later one
has either, so the whole pattern fails and the text is unchanged.  Fuel as
in `collapseAux`. -/
def removeAux : Nat → List Char → List Char
  | 0, s => s
  | fuel + 1, s =>
    match splitTwo '\x7b' s with
    | none => s
    | some (a, b) =>
      match splitTwo '\x7d' b with
      | none => s
      | some (_, c) => a ++ removeAux fuel c

/-- Embedding of `clean_mediawiki_markup`: remove the square brackets,
collapse the back-to-back template boundaries, then delete every
remaining lazily-matched template span. -/
def clean_mediawiki_markup (text : String) : String :=
  String.mk (removeAux text.toList.length
    (collapseAux text.toList.length (stripBrackets text.toList)))

/-- A span that the template-removal regex could still match: a doubled
opening brace with a doubled closing brace somewhere after it. -/
def hasTemplateSpan (s : List Char) : Bool :=
  match splitTwo '\x7b' s with
  | none => false
  | some (_, b) => containsSub closeBraces b

/-! ### Citation extractor (`get_pmids_from_mediawiki_markup`) -/

/-- The lookbehind of the first PMID convention. -/
def pmidMarker1 : List Char := ("\x7b\x7bPMID|").toList

/-- The lookbehind of the second PMID convention. -/
def pmidMarker2 : List Char := ("PMID=").toList

/-- Scanner for `re.findall(r'(?<=\{\{PMID\|)[0-9]*(?=\}\})', text)`.
`rctx` is the reversed text to the left of the current position and
`rest` the text from the current position on.  At a position whose left
context ends with the marker, the greedy digit run is a match exactly
when the doubled closing brace follows it (backtracking a shorter run
would put a digit, not a brace, under the lookahead).  A non-empty match
resumes at its end; an empty match advances by one position, as Python's
scanner does.  The fuel is one more than the length of the text, which is
one unit per scanned position. -/
def pmidScan1 : Nat → List Char → List Char → List (List Char)
  | 0, _, _ => []
  | fuel + 1, rctx, rest =>
    if startsWith pmidMarker1.reverse rctx then
      let d := rest.takeWhile pyDigit
      if startsWith closeBraces (rest.drop d.length) then
        if d.isEmpty then
          d :: (match rest with
                | [] => []
                | c :: t => pmidScan1 fuel (c :: rctx) t)
        else d :: pmidScan1 fuel (d.reverse ++ rctx) (rest.drop d.length)
      else
        match rest with
        | [] => []
        | c :: t => pmidScan1 fuel (c :: rctx) t
    else
      match rest with
      | [] => []
      | c :: t => pmidScan1 fuel (c :: rctx) t

/-- Scanner for `re.findall(r'(?<=PMID=)[0-9]*', text)`: as `pmidScan1`
but without a lookahead, so every position whose left context ends with
`PMID=` yields a match (possibly the empty digit run). -/
def pmidScan2 : Nat → List Char → List Char → List (List Char)
  | 0, _, _ => []
  | fuel + 1, rctx, rest =>
    if startsWith pmidMarker2.reverse rctx then
      let d := rest.takeWhile pyDigit
      if d.isEmpty then
        d :: (match rest with
              | [] => []
              | c :: t => pmidScan2 fuel (c :: rctx) t)
      else d :: pmidScan2 fuel (d.reverse ++ rctx) (rest.drop d.length)
    else
      match rest with
      | [] => []
      | c :: t => pmidScan2 fuel (c :: rctx) t

/-- The accessions found by the first convention, in text order. -/
def pmidsConvention1 (text : String) : List String :=
  (pmidScan1 (text.toList.length + 1) [] text.toList).map String.mk

/-- The accessions found by the second convention, in text order. -/
def pmidsConvention2 (text : String) : List String :=
  (pmidScan2 (text.toList.length + 1) [] text.toList).map String.mk

/-- Embedding of `get_pmids_from_mediawiki_markup`: the list from the
first convention extended by the list from the second. -/
def get_pmids_from_mediawiki_markup (text : String) : List String :=
  pmidsConvention1 text ++ pmidsConvention2 text

/-- A first-convention citation block starting at the head of the text:
the marker, a digit run, then the doubled closing brace.  (Equivalently,
the maximal digit run after the marker is followed by the brace, since a
shorter run would be followed by another digit.) -/
def startsPmidBlock (s : List Char) : Bool :=
  startsWith pmidMarker1 s &&
    startsWith closeBraces ((s.drop pmidMarker1.length).dropWhile pyDigit)

/-- Does the text contain a first-convention citation block anywhere? -/
def hasPmidBlock (s : List Char) : Bool := anyPos startsPmidBlock s

/-! ### Population-diversity extractor
(`get_population_diversity_from_mediawiki_markup`) -/

/-- The literal `population` of the diversity lookbehind. -/
def litPopulation : List Char := ("population").toList

/-- The literal `diversity|` of the diversity lookbehind. -/
def litDiversity : List Char := ("diversity|").toList

/-- The literal lookahead `HapMap` that ends the diversity region. -/
def litHapMap : List Char := ("HapMap").toList

/-- Match of the diversity lookbehind
`\{\{\spopulation\sdiversity\|\s` at the head of the text: two opening
braces, one `\s` character, `population`, one `\s`, `diversity|`, one
`\s`.  Returns the text after the marker. -/
def matchDivMarker : List Char → Option (List Char)
  | '\x7b' :: '\x7b' :: c :: t =>
    if pySpace c then
      if startsWith litPopulation t then
        match t.drop litPopulation.length with
        | c2 :: t2 =>
          if pySpace c2 then
            if startsWith litDiversity t2 then
              match t2.drop litDiversity.length with
              | c3 :: t3 => if pySpace c3 then some t3 else none
              | [] => none
            else none
          else none
        | [] => none
      else none
    else none
  | _ => none

/-- Lazily matched text up to the first occurrence of the literal (the
lookahead is not consumed); `none` when the literal does not occur. -/
def upToLit (lit : List Char) : List Char → Option (List Char)
  | [] => if startsWith lit [] then some [] else none
  | c :: t =>
    if startsWith lit (c :: t) then some []
    else
      match upToLit lit t with
      | some p => some (c :: p)
      | none => none

/-- The region isolated by
`re.search("(?<=\{\{\spopulation\sdiversity\|\s).*?(?=HapMap)", text)`
on the newline-stripped text: the text between the first occurrence of
the marker and the first `HapMap` after it.  If the first marker
occurrence has no `HapMap` after it, no later occurrence has either, so
the search fails. -/
def findDivRegion : List Char → Option (List Char)
  | [] => none
  | c :: t =>
    match matchDivMarker (c :: t) with
    | some rest => upToLit litHapMap rest
    | none => findDivRegion t

/-- The literal prefix `geno` that classifies genotype fields. -/
def litGeno : List Char := ("geno").toList

/-- The split-and-stripped fields of the diversity region:
`[e.strip() for e in data.group().split('|')]`. -/
def fieldsOf (r : List Char) : List String :=
  (splitChar '|' r).map (fun f => String.mk (pyStrip f))

/-- The genotype fields: those starting with `geno`. -/
def gdataOf (r : List Char) : List String :=
  (fieldsOf r).filter (fun e => startsWith litGeno e.toList)

/-- The candidate diversity fields: the remaining non-empty fields, in
order. -/
def ddataOf (r : List Char) : List String :=
  (fieldsOf r).filter
    (fun e => !(startsWith litGeno e.toList) && !(e.toList.isEmpty))

/-- Assignment `d[key] = v` on a Python dict, modelled as an association
list: only the stored key-to-value mapping is consulted by the source, so
a present key has its value replaced and a fresh key is appended. -/
def dictInsert (m : List (String × α)) (key : String) (v : α) :
    List (String × α) :=
  if m.any (fun p => decide (p.1 = key)) then
    m.map (fun p => if p.1 = key then (key, v) else p)
  else m ++ [(key, v)]

/-- The genotype-dictionary loop: `g, b = gt.split('=')` raises a
`ValueError` (modelled as `Except.error`) unless the split has exactly
two pieces, aborting the whole extraction at the first bad field. -/
def buildGenoAux :
    List (String × String) → List String → Except Unit (List (String × String))
  | acc, [] => .ok acc
  | acc, gt :: rest =>
    match splitChar '=' gt.toList with
    | [g, b] => buildGenoAux (dictInsert acc (String.mk g) (String.mk b)) rest
    | _ => .error ()

/-- The windows of the loop
`for idx in range(0, len(ddata), k+1): diversity[ddata[idx]] =
tuple(ddata[idx+1:idx+1+k])`: each window is a leading label and the next
`k` elements, with Python slicing truncating the final window.  The fuel
is an upper bound on the window count; the list length is sufficient. -/
def windowsAux (k : Nat) : Nat → List String → List (String × List String)
  | 0, _ => []
  | _ + 1, [] => []
  | fuel + 1, x :: rest => (x, rest.take k) :: windowsAux k fuel (rest.drop k)

/-- The diversity dictionary built from the candidate fields. -/
def buildDiversity (k : Nat) (dd : List String) :
    List (String × List String) :=
  (windowsAux k dd.length dd).foldl (fun m p => dictInsert m p.1 p.2) []

/-- Decoding of an isolated diversity region: build the genotype
dictionary (propagating the `ValueError` of a bad `geno` field), then
window the candidate fields with the window size derived from the number
of genotype keys. -/
def parseDivRegion (r : List Char) :
    Except Unit (List (String × String) × List (String × List String)) :=
  match buildGenoAux [] (gdataOf r) with
  | .error e => .error e
  | .ok gm => .ok (gm, buildDiversity gm.length (ddataOf r))

/-- Embedding of `get_population_diversity_from_mediawiki_markup`.  The
first component is `none` when the diversity region is absent (the
source prints a diagnostic and returns `None`), `some (.error ())` when
the two-way unpacking of a genotype field raises, and `some (.ok tables)`
otherwise.  The second component records whether the not-found
diagnostic was printed. -/
def get_population_diversity_from_mediawiki_markup (text : String) :
    Option (Except Unit
      (List (String × String) × List (String × List String))) × Bool :=
  match findDivRegion (stripNL text.toList) with
  | none => (none, true)
  | some r => (some (parseDivRegion r), false)

/-! ### Cross-reference extractors (`get_pharmgkb_from_mediawiki_markup`,
`get_omim_from_mediawiki_markup`) -/

/-- Scanner for `re.findall("(?<=\{\{Name\|).*?(?=\}\})", text)`: at a
position whose left context ends with the marker, the lazy payload runs
to the first doubled closing brace in the remaining text (the lookahead
is not consumed, so a non-empty match resumes at the closing brace and an
empty match advances by one position).  When no doubled closing brace
remains, no later position can match, so the scan stops. -/
def lazyScan (marker : List Char) :
    Nat → List Char → List Char → List (List Char)
  | 0, _, _ => []
  | fuel + 1, rctx, rest =>
    if startsWith marker.reverse rctx then
      match splitTwo '\x7d' rest with
      | none => []
      | some (payload, after) =>
        payload ::
          (if payload.isEmpty then
            match rest with
            | [] => []
            | c :: t => lazyScan marker fuel (c :: rctx) t
          else
            lazyScan marker fuel (payload.reverse ++ rctx)
              ('\x7d' :: '\x7d' :: after))
    else
      match rest with
      | [] => []
      | c :: t => lazyScan marker fuel (c :: rctx) t

/-- All payloads of a named template in the newline-stripped text. -/
def findallPayload (marker : List Char) (text : String) : List String :=
  (lazyScan marker ((stripNL text.toList).length + 1) []
    (stripNL text.toList)).map String.mk

/-- The lookbehind of the PharmGKB template. -/
def pharmgkbMarker : List Char := ("\x7b\x7bPharmGKB|").toList

/-- The lookbehind of the OMIM template (lowercase in the source). -/
def omimMarker : List Char := ("\x7b\x7bomim|").toList

/-- Embedding of `get_pharmgkb_from_mediawiki_markup`.  The source tests
the `findall` result against `None` before printing a diagnostic, but
`findall` returns a list, never `None`, so that branch cannot run: the
flag recording whether the diagnostic was printed is constantly false. -/
def get_pharmgkb_from_mediawiki_markup (text : String) : List String × Bool :=
  (findallPayload pharmgkbMarker text, false)

/-- Embedding of `get_omim_from_mediawiki_markup`; the dead `None` test
is as in `get_pharmgkb_from_mediawiki_markup`. -/
def get_omim_from_mediawiki_markup (text : String) : List String × Bool :=
  (findallPayload omimMarker text, false)

/-! ### Canonical accession extractor (`get_rsnum_from_mediawiki_markup`) -/

/-- The lookbehind of the Rsnum template. -/
def rsnumMarker : List Char := ("\x7b\x7bRsnum|").toList

/-- Search for the first payload of a named template:
`re.search("(?<=\{\{Name\|).*?(?=\}\})", text)`.  The first marker
occurrence decides: if no doubled closing brace follows it, none follows
any later occurrence either, and the search fails. -/
def searchPayload (marker : List Char) : List Char → Option (List Char)
  | [] => none
  | c :: t =>
    if startsWith marker (c :: t) then
      match splitTwo '\x7d' ((c :: t).drop marker.length) with
      | some (payload, _) => some payload
      | none => none
    else searchPayload marker t

/-- Embedding of `get_rsnum_from_mediawiki_markup`: the payload of the
first Rsnum block of the newline-stripped text, or `none` with the
diagnostic flag set. -/
def get_rsnum_from_mediawiki_markup (text : String) : Option String × Bool :=
  match searchPayload rsnumMarker (stripNL text.toList) with
  | some payload => (some (String.mk payload), false)
  | none => (none, true)

/-! ### Helper lemmas about the scanners -/

theorem startsWith_ex {p s : List Char} (h : startsWith p s = true) :
    ∃ t, s = p ++ t := by
  induction p generalizing s with
  | nil => exact ⟨s, rfl⟩
  | cons a ps ih =>
    cases s with
    | nil => simp [startsWith] at h
    | cons c cs =>
      simp only [startsWith, Bool.and_eq_true, decide_eq_true_eq] at h
      obtain ⟨rfl, h2⟩ := h
      obtain ⟨t, rfl⟩ := ih h2
      exact ⟨t, rfl⟩

theorem startsWith_append_self (p t : List Char) :
    startsWith p (p ++ t) = true := by
  induction p with
  | nil => rfl
  | cons a ps ih => simp [startsWith, ih]

theorem anyPos_append {q : List Char → Bool} {v : List Char}
    (u : List Char) (h : q v = true) : anyPos q (u ++ v) = true := by
  induction u with
  | nil =>
    cases v with
    | nil => simpa [anyPos] using h
    | cons c t => simp [anyPos, h]
  | cons c u ih => simp [anyPos, ih]

theorem containsSub_of_startsWith {pat v : List Char} (u : List Char)
    (h : startsWith pat v = true) : containsSub pat (u ++ v) = true :=
  anyPos_append u h

theorem drop_takeWhile_length (p : Char → Bool) (l : List Char) :
    l.drop (l.takeWhile p).length = l.dropWhile p := by
  induction l with
  | nil => rfl
  | cons c t ih =>
    by_cases hc : p c = true
    · simp [List.takeWhile_cons, List.dropWhile_cons, hc, ih]
    · simp [List.takeWhile_cons, List.dropWhile_cons, hc]

theorem pmidScan2_eq_nil :
    ∀ (fuel : Nat) (rctx rest : List Char),
      containsSub pmidMarker2 (rctx.reverse ++ rest) = false →
      pmidScan2 fuel rctx rest = [] := by
  intro fuel
  induction fuel with
  | zero => intro rctx rest _; rfl
  | succ f ih =>
    intro rctx rest h
    cases hlb : startsWith pmidMarker2.reverse rctx with
    | true =>
      exfalso
      obtain ⟨u, hu⟩ := startsWith_ex hlb
      subst hu
      rw [List.reverse_append, List.reverse_reverse, List.append_assoc] at h
      rw [containsSub_of_startsWith u.reverse
        (startsWith_append_self pmidMarker2 rest)] at h
      cases h
    | false =>
      cases rest with
      | nil => simp [pmidScan2, hlb]
      | cons c t =>
        simp only [pmidScan2, hlb, Bool.false_eq_true, if_false]
        exact ih _ _ (by simpa [List.append_assoc] using h)

theorem pmidScan1_eq_nil :
    ∀ (fuel : Nat) (rctx rest : List Char),
      hasPmidBlock (rctx.reverse ++ rest) = false →
      pmidScan1 fuel rctx rest = [] := by
  intro fuel
  induction fuel with
  | zero => intro rctx rest _; rfl
  | succ f ih =>
    intro rctx rest h
    cases hlb : startsWith pmidMarker1.reverse rctx with
    | true =>
      cases hla : startsWith closeBraces
          (rest.drop (rest.takeWhile pyDigit).length) with
      | true =>
        exfalso
        obtain ⟨u, hu⟩ := startsWith_ex hlb
        subst hu
        rw [List.reverse_append, List.reverse_reverse, List.append_assoc] at h
        have hblock : startsPmidBlock (pmidMarker1 ++ rest) = true := by
          unfold startsPmidBlock
          rw [List.drop_left, ← drop_takeWhile_length pyDigit rest,
            startsWith_append_self, hla]
          rfl
        rw [show hasPmidBlock (u.reverse ++ (pmidMarker1 ++ rest)) = true from
          anyPos_append u.reverse hblock] at h
        cases h
      | false =>
        cases rest with
        | nil => simp [pmidScan1, hlb, closeBraces, startsWith]
        | cons c t =>
          simp only [pmidScan1, hlb, hla, Bool.false_eq_true, if_false,
            if_true]
          exact ih _ _ (by simpa [List.append_assoc] using h)
    | false =>
      cases rest with
      | nil => simp [pmidScan1, hlb]
      | cons c t =>
        simp only [pmidScan1, hlb, Bool.false_eq_true, if_false]
        exact ih _ _ (by simpa [List.append_assoc] using h)

theorem lazyScan_eq_nil (marker : List Char) :
    ∀ (fuel : Nat) (rctx rest : List Char),
      containsSub marker (rctx.reverse ++ rest) = false →
      lazyScan marker fuel rctx rest = [] := by
  intro fuel
  induction fuel with
  | zero => intro rctx rest _; rfl
  | succ f ih =>
    intro rctx rest h
    cases hlb : startsWith marker.reverse rctx with
    | true =>
      exfalso
      obtain ⟨u, hu⟩ := startsWith_ex hlb
      subst hu
      rw [List.reverse_append, List.reverse_reverse, List.append_assoc] at h
      rw [containsSub_of_startsWith u.reverse
        (startsWith_append_self marker rest)] at h
      cases h
    | false =>
      cases rest with
      | nil => simp [lazyScan, hlb]
      | cons c t =>
        simp only [lazyScan, hlb, Bool.false_eq_true, if_false]
        exact ih _ _ (by simpa [List.append_assoc] using h)

theorem splitTwo_eq {x : Char} {s a b : List Char}
    (h : splitTwo x s = some (a, b)) : s = a ++ x :: x :: b := by
  induction s generalizing a b with
  | nil => exact Option.noConfusion h
  | cons c t ih =>
    cases t with
    | nil => exact Option.noConfusion h
    | cons d rest =>
      by_cases hx : c = x ∧ d = x
      · rw [splitTwo, if_pos hx] at h
        injection h with h
        injection h with h1 h2
        subst h1
        subst h2
        simp [hx.1, hx.2]
      · rw [splitTwo, if_neg hx] at h
        cases hin : splitTwo x (d :: rest) with
        | none => rw [hin] at h; exact Option.noConfusion h
        | some p =>
          obtain ⟨a', b'⟩ := p
          rw [hin] at h
          injection h with h
          injection h with h1 h2
          subst h1
          subst h2
          rw [List.cons_append, ← ih hin]

theorem splitTwo_none_contains {x : Char} {s : List Char}
    (h : splitTwo x s = none) : containsSub (x :: x :: []) s = false := by
  induction s with
  | nil => rfl
  | cons c t ih =>
    cases t with
    | nil => simp [containsSub, anyPos, startsWith]
    | cons d rest =>
      by_cases hx : c = x ∧ d = x
      · rw [splitTwo, if_pos hx] at h
        exact Option.noConfusion h
      · rw [splitTwo, if_neg hx] at h
        cases hin : splitTwo x (d :: rest) with
        | some p =>
          obtain ⟨a', b'⟩ := p
          rw [hin] at h
          exact Option.noConfusion h
        | none =>
          have hsw : startsWith (x :: x :: []) (c :: d :: rest) = false := by
            by_cases hc : x = c
            · by_cases hd : x = d
              · exact absurd ⟨hc.symm, hd.symm⟩ hx
              · simp [startsWith, hd]
            · simp [startsWith, hc]
          have ih' := ih hin
          simp only [containsSub, anyPos] at ih' ⊢
          rw [hsw, ih']
          rfl

theorem splitTwo_freeOf {x : Char} {s a b : List Char}
    (h : splitTwo x s = some (a, b)) : freeOf x a = true := by
  induction s generalizing a b with
  | nil => exact Option.noConfusion h
  | cons c t ih =>
    cases t with
    | nil => exact Option.noConfusion h
    | cons d rest =>
      by_cases hx : c = x ∧ d = x
      · rw [splitTwo, if_pos hx] at h
        injection h with h
        injection h with h1 _
        subst h1
        rfl
      · rw [splitTwo, if_neg hx] at h
        cases hin : splitTwo x (d :: rest) with
        | none => rw [hin] at h; exact Option.noConfusion h
        | some p =>
          obtain ⟨a', b'⟩ := p
          rw [hin] at h
          injection h with h
          injection h with h1 h2
          subst h1
          subst h2
          have hfree' := ih hin
          cases a' with
          | nil =>
            have hd : d = x := by
              have he := splitTwo_eq hin
              simp only [List.nil_append, List.cons.injEq] at he
              exact he.1
            have hc : ¬ c = x := fun hc => hx ⟨hc, hd⟩
            simp [freeOf, hc]
          | cons e a'' =>
            have he := splitTwo_eq hin
            simp only [List.cons_append, List.cons.injEq] at he
            have hed : e = d := he.1.symm
            subst hed
            simp only [freeOf, Bool.and_eq_true, decide_eq_true_eq]
            exact ⟨hx, hfree'⟩

theorem freeOf_prepend {x : Char} {a : List Char} (hfree : freeOf x a = true)
    (X : List Char) :
    splitTwo x (a ++ X) = (splitTwo x X).map (fun p => (a ++ p.1, p.2)) := by
  induction a with
  | nil =>
    simp only [List.nil_append]
    cases splitTwo x X with
    | none => rfl
    | some p => simp
  | cons c a' ih =>
    cases a' with
    | nil =>
      have hc : ¬ c = x := by simpa [freeOf] using hfree
      cases X with
      | nil =>
        simp [splitTwo]
      | cons e Y =>
        have hne : ¬(c = x ∧ e = x) := fun hh => hc hh.1
        simp only [List.cons_append, List.nil_append]
        rw [splitTwo, if_neg hne]
        cases splitTwo x (e :: Y) with
        | none => rfl
        | some p =>
          obtain ⟨pa, pb⟩ := p
          simp
    | cons d a'' =>
      have h1 : ¬(c = x ∧ d = x) := by
        intro hh
        rw [freeOf] at hfree
        simp [hh] at hfree
      have h2 : freeOf x (d :: a'') = true := by
        rw [freeOf, Bool.and_eq_true] at hfree
        exact hfree.2
      have ih' := ih h2
      rw [List.cons_append] at ih'
      simp only [List.cons_append]
      rw [splitTwo, if_neg h1, ih']
      cases splitTwo x X with
      | none => rfl
      | some p =>
        obtain ⟨pa, pb⟩ := p
        simp

theorem hasTemplateSpan_removeAux :
    ∀ (fuel : Nat) (s : List Char), s.length ≤ fuel →
      hasTemplateSpan (removeAux fuel s) = false := by
  intro fuel
  induction fuel with
  | zero =>
    intro s hs
    have hnil : s = [] := List.length_eq_zero.mp (Nat.le_zero.mp hs)
    subst hnil
    rfl
  | succ f ih =>
    intro s hs
    cases h1 : splitTwo '\x7b' s with
    | none =>
      simp only [removeAux, h1, hasTemplateSpan]
    | some p =>
      obtain ⟨a, b⟩ := p
      cases h2 : splitTwo '\x7d' b with
      | none =>
        simp only [removeAux, h1, h2, hasTemplateSpan]
        exact splitTwo_none_contains h2
      | some p2 =>
        obtain ⟨m, c⟩ := p2
        simp only [removeAux, h1, h2]
        have hlen : c.length ≤ f := by
          have e1 := splitTwo_eq h1
          have e2 := splitTwo_eq h2
          rw [e1, e2] at hs
          simp [List.length_append] at hs
          omega
        have hres := ih c hlen
        have hfree := splitTwo_freeOf h1
        unfold hasTemplateSpan
        rw [freeOf_prepend hfree]
        cases h3 : splitTwo '\x7b' (removeAux f c) with
        | none => rfl
        | some p3 =>
          obtain ⟨a', b'⟩ := p3
          unfold hasTemplateSpan at hres
          rw [h3] at hres
          simpa using hres

theorem length_dropWhile_le (p : Char → Bool) (l : List Char) :
    (l.dropWhile p).length ≤ l.length := by
  induction l with
  | nil => exact Nat.le_refl _
  | cons c t ih =>
    rw [List.dropWhile_cons]
    by_cases hc : p c = true
    · rw [if_pos hc]
      exact Nat.le_succ_of_le ih
    · rw [if_neg hc]

theorem openAfterWs_length {rest r : List Char}
    (h : openAfterWs rest = some r) : r.length + 2 ≤ rest.length := by
  unfold openAfterWs at h
  split at h
  · rename_i d1 d2 r2 heq
    split at h
    · injection h with h
      subst h
      have hle : (rest.dropWhile pySpace).length ≤ rest.length :=
        length_dropWhile_le pySpace rest
      rw [heq] at hle
      simp only [List.length_cons] at hle
      omega
    · exact Option.noConfusion h
  · exact Option.noConfusion h

theorem matchBoundary_length {s r : List Char}
    (h : matchBoundary s = some r) : r.length + 4 ≤ s.length := by
  cases s with
  | nil => exact Option.noConfusion h
  | cons c1 t1 =>
    cases t1 with
    | nil => exact Option.noConfusion h
    | cons c2 rest =>
      rw [matchBoundary] at h
      split at h
      · have := openAfterWs_length h
        simp only [List.length_cons]
        omega
      · exact Option.noConfusion h

theorem findBoundary_length {s a r : List Char}
    (h : findBoundary s = some (a, r)) : a.length + r.length + 4 ≤ s.length := by
  induction s generalizing a with
  | nil => exact Option.noConfusion h
  | cons c t ih =>
    rw [findBoundary] at h
    cases hm : matchBoundary (c :: t) with
    | some r2 =>
      rw [hm] at h
      injection h with h
      injection h with h1 h2
      subst h1
      subst h2
      have := matchBoundary_length hm
      simpa using this
    | none =>
      rw [hm] at h
      cases hf : findBoundary t with
      | none => rw [hf] at h; exact Option.noConfusion h
      | some p =>
        obtain ⟨a', r'⟩ := p
        rw [hf] at h
        injection h with h
        injection h with h1 h2
        subst h1
        subst h2
        have := ih hf
        simp only [List.length_cons]
        omega

theorem collapseAux_length_le :
    ∀ (fuel : Nat) (s : List Char), (collapseAux fuel s).length ≤ s.length := by
  intro fuel
  induction fuel with
  | zero => intro s; exact Nat.le_refl _
  | succ f ih =>
    intro s
    cases hf : findBoundary s with
    | none => simp [collapseAux, hf]
    | some p =>
      obtain ⟨a, r⟩ := p
      simp only [collapseAux, hf]
      have h1 := findBoundary_length hf
      have h2 := ih r
      simp only [List.length_append]
      omega

theorem dictInsert_all {α : Type} (q : String × α → Bool)
    {m : List (String × α)} {key : String} {v : α}
    (hm : m.all q = true) (hv : q (key, v) = true) :
    (dictInsert m key v).all q = true := by
  unfold dictInsert
  by_cases hmem : m.any (fun p => decide (p.1 = key)) = true
  · rw [if_pos hmem, List.all_eq_true]
    intro p hp
    rw [List.mem_map] at hp
    obtain ⟨p0, hp0, rfl⟩ := hp
    by_cases hk : p0.1 = key
    · rw [if_pos hk]; exact hv
    · rw [if_neg hk]; exact List.all_eq_true.mp hm p0 hp0
  · rw [if_neg hmem, List.all_append, hm]
    simpa using hv

theorem foldl_dictInsert_all {α : Type} (q : String × α → Bool) :
    ∀ (ws : List (String × α)) (acc : List (String × α)),
      acc.all q = true → ws.all q = true →
      (ws.foldl (fun m p => dictInsert m p.1 p.2) acc).all q = true := by
  intro ws
  induction ws with
  | nil => intro acc hacc _; simpa using hacc
  | cons w ws ih =>
    intro acc hacc hws
    rw [List.all_cons, Bool.and_eq_true] at hws
    exact ih _ (dictInsert_all q hacc hws.1) hws.2

theorem windowsAux_all_le (k : Nat) :
    ∀ (fuel : Nat) (l : List String),
      (windowsAux k fuel l).all (fun p => decide (p.2.length ≤ k)) = true := by
  intro fuel
  induction fuel with
  | zero => intro l; rfl
  | succ f ih =>
    intro l
    cases l with
    | nil => rfl
    | cons x rest =>
      simp only [windowsAux, List.all_cons, ih, Bool.and_true,
        decide_eq_true_eq, List.length_take]
      omega

theorem windowsAux_all_eq (k : Nat) :
    ∀ (fuel : Nat) (l : List String), l.length ≤ fuel →
      l.length % (k + 1) = 0 →
      (windowsAux k fuel l).all (fun p => p.2.length == k) = true := by
  intro fuel
  induction fuel with
  | zero =>
    intro l hl _
    have hnil : l = [] := List.length_eq_zero.mp (Nat.le_zero.mp hl)
    subst hnil; rfl
  | succ f ih =>
    intro l hl hmod
    cases l with
    | nil => rfl
    | cons x rest =>
      have hdvd : (k + 1) ∣ (rest.length + 1) := by
        have hd := Nat.dvd_of_mod_eq_zero hmod
        simpa using hd
      obtain ⟨q, hq⟩ := hdvd
      have hq1 : 1 ≤ q := by
        rcases Nat.eq_zero_or_pos q with h0 | h1
        · subst h0; omega
        · exact h1
      have hrk : k ≤ rest.length := by
        have h2 : (k + 1) * 1 ≤ (k + 1) * q := Nat.mul_le_mul_left _ hq1
        generalize (k + 1) * q = M at hq h2
        omega
      have htake : (rest.take k).length = k := by
        rw [List.length_take]; omega
      have hdrop : (rest.drop k).length % (k + 1) = 0 := by
        rw [List.length_drop]
        have hsub : rest.length - k = (k + 1) * (q - 1) := by
          cases q with
          | zero => omega
          | succ q' =>
            rw [Nat.mul_succ] at hq
            simp only [Nat.succ_sub_one]
            generalize (k + 1) * q' = M at hq ⊢
            omega
        rw [hsub]
        exact Nat.mul_mod_right _ _
      have hfuel : (rest.drop k).length ≤ f := by
        rw [List.length_drop]
        simp only [List.length_cons] at hl
        omega
      simp only [windowsAux, List.all_cons]
      rw [ih _ hfuel hdrop, htake]
      simp

theorem buildDiversity_all_le (k : Nat) (dd : List String) :
    (buildDiversity k dd).all (fun p => decide (p.2.length ≤ k)) = true :=
  foldl_dictInsert_all _ _ [] rfl (windowsAux_all_le k _ dd)

theorem buildDiversity_all_eq (k : Nat) (dd : List String)
    (h : dd.length % (k + 1) = 0) :
    (buildDiversity k dd).all (fun p => p.2.length == k) = true :=
  foldl_dictInsert_all _ _ [] rfl
    (windowsAux_all_eq k dd.length dd (Nat.le_refl _) h)

/-! ### Claim theorems -/

/-- C1: for every RawMarkup whose newline-stripped text yields the
diversity region ` geno1=(A;A) | geno2=(A;G) | CEU | 40% | 60% ` (first
conjunct) or, to exercise the general windowing, the one-genotype
two-population region (second conjunct), the diversity extractor returns
the genotype mapping built from the `geno`-prefixed fields and the
diversity mapping obtained by walking the remaining non-empty fields in
windows of size `k + 1`, each window mapping a population label to the
`k`-tuple of frequency strings in genotype-declaration order. -/
theorem c1_diversity_extraction (s : String) :
    (findDivRegion (stripNL s.toList) =
        some ("geno1=(A;A) | geno2=(A;G) | CEU | 40% | 60% | ").toList →
      get_population_diversity_from_mediawiki_markup s =
        (some (Except.ok ([("geno1", "(A;A)"), ("geno2", "(A;G)")],
          [("CEU", ["40%", "60%"])])), false)) ∧
    (findDivRegion (stripNL s.toList) =
        some ("geno1=(C;C) | CHB | 10% | JPT | 90% | ").toList →
      get_population_diversity_from_mediawiki_markup s =
        (some (Except.ok ([("geno1", "(C;C)")],
          [("CHB", ["10%"]), ("JPT", ["90%"])])), false)) := by
  constructor <;> intro h <;>
    · unfold get_population_diversity_from_mediawiki_markup
      rw [h]
      rfl

/-- Witness for C1: the two hypotheses hold at the concrete markups of
the spec's examples. -/
theorem c1_diversity_extraction_witness :
    get_population_diversity_from_mediawiki_markup
        "\x7b\x7b population diversity| geno1=(A;A) | geno2=(A;G) | CEU | 40% | 60% | HapMap\x7d\x7d" =
      (some (Except.ok ([("geno1", "(A;A)"), ("geno2", "(A;G)")],
        [("CEU", ["40%", "60%"])])), false) ∧
    get_population_diversity_from_mediawiki_markup
        "\x7b\x7b population diversity| geno1=(C;C) | CHB | 10% | JPT | 90% | HapMap\x7d\x7d" =
      (some (Except.ok ([("geno1", "(C;C)")],
        [("CHB", ["10%"]), ("JPT", ["90%"])])), false) :=
  ⟨(c1_diversity_extraction _).1 (by rfl),
   (c1_diversity_extraction _).2 (by rfl)⟩

/-- C2 counterexample: with two genotype labels and the candidate fields
`CEU | 40% | 60% | YRI` (count 4, not a multiple of 3), the trailing
partial window is not dropped: the extractor returns an entry `YRI`
whose frequency tuple is empty, so not every frequency tuple has length
equal to the number of genotype labels. -/
theorem c2_partial_window_counterexample :
    ∃ gm dm,
      get_population_diversity_from_mediawiki_markup
          "\x7b\x7b population diversity| geno1=(A;A) | geno2=(A;G) | CEU | 40% | 60% | YRI | HapMap\x7d\x7d" =
        (some (Except.ok (gm, dm)), false) ∧
      ("YRI", ([] : List String)) ∈ dm ∧
      ¬(([] : List String).length = gm.length) :=
  ⟨[("geno1", "(A;A)"), ("geno2", "(A;G)")],
   [("CEU", ["40%", "60%"]), ("YRI", [])], by rfl, by decide, by decide⟩

/-- C2 (amended): the trailing partial window is not dropped but
truncated, so every frequency tuple of a successfully decoded diversity
region has length at most the number of genotype labels, with equality
for every tuple whenever the candidate-field count is a multiple of
`k + 1`. -/
theorem c2_window_lengths_amended (r : List Char)
    (gm : List (String × String)) (dm : List (String × List String))
    (h : parseDivRegion r = Except.ok (gm, dm)) :
    dm.all (fun p => decide (p.2.length ≤ gm.length)) = true ∧
    ((ddataOf r).length % (gm.length + 1) = 0 →
      dm.all (fun p => p.2.length == gm.length) = true) := by
  unfold parseDivRegion at h
  cases hb : buildGenoAux [] (gdataOf r) with
  | error e => rw [hb] at h; cases h
  | ok gm0 =>
    rw [hb] at h
    injection h with h
    injection h with h1 h2
    subst h1
    subst h2
    exact ⟨buildDiversity_all_le _ _, fun hmod => buildDiversity_all_eq _ _ hmod⟩

/-- Witness for C2 (amended): a one-genotype region whose two candidate
fields divide evenly into one window of size two. -/
theorem c2_window_lengths_amended_witness :
    parseDivRegion ("geno1=(A;A) | CHB | 10% | ").toList =
      Except.ok ([("geno1", "(A;A)")], [("CHB", ["10%"])]) ∧
    ([(("CHB" : String), (["10%"] : List String))].all
      (fun p => p.2.length == 1)) = true :=
  ⟨by rfl,
   (c2_window_lengths_amended ("geno1=(A;A) | CHB | 10% | ").toList
     [("geno1", "(A;A)")] [("CHB", ["10%"])] (by rfl)).2 (by decide)⟩

/-- C3: the citation extractor returns the first-convention accessions
followed by the second-convention accessions, each in text order, with
no deduplication; on input containing both a direct PMID block and a
PMID-Auto keyed field it returns `["1", "2"]`. -/
theorem c3_citation_concatenation :
    (∀ t : String, get_pmids_from_mediawiki_markup t =
      pmidsConvention1 t ++ pmidsConvention2 t) ∧
    pmidsConvention1
      "\x7b\x7bPMID|1\x7d\x7d and \x7b\x7bPMID Auto|PMID=2|comment\x7d\x7d" = ["1"] ∧
    pmidsConvention2
      "\x7b\x7bPMID|1\x7d\x7d and \x7b\x7bPMID Auto|PMID=2|comment\x7d\x7d" = ["2"] ∧
    get_pmids_from_mediawiki_markup
      "\x7b\x7bPMID|1\x7d\x7d and \x7b\x7bPMID Auto|PMID=2|comment\x7d\x7d" = ["1", "2"] :=
  ⟨fun _ => rfl, rfl, rfl, rfl⟩

/-- C4: the markup cleaner removes every square bracket, collapses the
adjacent closing-then-opening template boundaries, then removes the
shortest regions between a doubled opening brace and the next doubled
closing brace until none remain: the spec's example evaluates as stated,
and no removable template span survives in any cleaned output. -/
theorem c4_markup_cleaner :
    clean_mediawiki_markup
        "See [[rs737865]] and \x7b\x7bPMID|123\x7d\x7d for details" =
      "See rs737865 and  for details" ∧
    ∀ t : String, hasTemplateSpan (clean_mediawiki_markup t).toList = false := by
  refine ⟨by rfl, fun t => ?_⟩
  show hasTemplateSpan (removeAux t.toList.length
    (collapseAux t.toList.length (stripBrackets t.toList))) = false
  apply hasTemplateSpan_removeAux
  exact Nat.le_trans (collapseAux_length_le _ _) (List.length_filter_le _ _)

/-- C5: the canonical accession extractor returns the payload of the
first Rsnum block (`rs737865` in the spec's example), only the first of
two blocks, and an explicit absent result with the diagnostic flag (and
no fault) when no block exists; in general the diagnostic fires exactly
when the result is absent. -/
theorem c5_rsnum_first_payload :
    (∀ s : String, (get_rsnum_from_mediawiki_markup s).1 = none ↔
      (get_rsnum_from_mediawiki_markup s).2 = true) ∧
    get_rsnum_from_mediawiki_markup "a \x7b\x7bRsnum|rs737865\x7d\x7d b" =
      (some "rs737865", false) ∧
    get_rsnum_from_mediawiki_markup
      "\x7b\x7bRsnum|rs1\x7d\x7d \x7b\x7bRsnum|rs2\x7d\x7d" = (some "rs1", false) ∧
    get_rsnum_from_mediawiki_markup "no accession" = (none, true) := by
  refine ⟨fun s => ?_, rfl, rfl, rfl⟩
  unfold get_rsnum_from_mediawiki_markup
  cases searchPayload rsnumMarker (stripNL s.toList) <;> simp

/-- C6: markup containing no first-convention citation block and no
`PMID=` occurrence yields the empty citation list, with no fault. -/
theorem c6_no_citations_empty (t : String)
    (h1 : hasPmidBlock t.toList = false)
    (h2 : containsSub pmidMarker2 t.toList = false) :
    get_pmids_from_mediawiki_markup t = [] := by
  unfold get_pmids_from_mediawiki_markup pmidsConvention1 pmidsConvention2
  rw [pmidScan1_eq_nil _ _ _ (by simpa using h1),
      pmidScan2_eq_nil _ _ _ (by simpa using h2)]
  rfl

/-- Witness for C6: a concrete citation-free markup. -/
theorem c6_no_citations_empty_witness :
    hasPmidBlock ("no citations here").toList = false ∧
    containsSub pmidMarker2 ("no citations here").toList = false ∧
    get_pmids_from_mediawiki_markup "no citations here" = [] :=
  ⟨by decide, by decide,
   c6_no_citations_empty "no citations here" (by decide) (by decide)⟩

/-- C8 (amended): each cross-reference extractor returns the ordered raw
payloads of its template, one per matching block; when its marker is
absent it returns the empty sequence — silently, the diagnostic branch
being unreachable — and this is not an error condition. -/
theorem c8_crossref_extractors (s : String) :
    (containsSub omimMarker (stripNL s.toList) = false →
      get_omim_from_mediawiki_markup s = ([], false)) ∧
    (containsSub pharmgkbMarker (stripNL s.toList) = false →
      get_pharmgkb_from_mediawiki_markup s = ([], false)) ∧
    get_omim_from_mediawiki_markup "a \x7b\x7bomim|601665\x7d\x7d b" =
      (["601665"], false) ∧
    get_pharmgkb_from_mediawiki_markup
        "a \x7b\x7bPharmGKB|PA134880842\x7d\x7d b \x7b\x7bPharmGKB|PA28\x7d\x7d" =
      (["PA134880842", "PA28"], false) := by
  refine ⟨fun h => ?_, fun h => ?_, rfl, rfl⟩
  · have hh := lazyScan_eq_nil omimMarker ((stripNL s.toList).length + 1) []
      (stripNL s.toList) (by simpa using h)
    unfold get_omim_from_mediawiki_markup findallPayload
    rw [hh]
    rfl
  · have hh := lazyScan_eq_nil pharmgkbMarker ((stripNL s.toList).length + 1)
      [] (stripNL s.toList) (by simpa using h)
    unfold get_pharmgkb_from_mediawiki_markup findallPayload
    rw [hh]
    rfl

/-- Witness for C8 (amended): a concrete marker-free markup. -/
theorem c8_crossref_extractors_witness :
    containsSub omimMarker (stripNL ("plain prose").toList) = false ∧
    containsSub pharmgkbMarker (stripNL ("plain prose").toList) = false ∧
    get_omim_from_mediawiki_markup "plain prose" = ([], false) ∧
    get_pharmgkb_from_mediawiki_markup "plain prose" = ([], false) :=
  ⟨by decide, by decide,
   (c8_crossref_extractors "plain prose").1 (by decide),
   (c8_crossref_extractors "plain prose").2.1 (by decide)⟩

/-- C7: whenever the newline-stripped text lacks the population-diversity
region, the extractor reports not-found (diagnostic flag, no table) and
raises no exception. -/
theorem c7_diversity_not_found (s : String)
    (h : findDivRegion (stripNL s.toList) = none) :
    get_population_diversity_from_mediawiki_markup s = (none, true) := by
  unfold get_population_diversity_from_mediawiki_markup
  rw [h]

/-- Witness for C7: concrete markup without the boundary markers. -/
theorem c7_diversity_not_found_witness :
    findDivRegion (stripNL ("plain text").toList) = none ∧
    get_population_diversity_from_mediawiki_markup "plain text" =
      (none, true) :=
  ⟨rfl, c7_diversity_not_found "plain text" rfl⟩

/-- C8 counterexample: on markup with no matching block both
cross-reference extractors do return the empty sequence, but the
diagnostic branch of the source is dead (`findall` never returns
`None`), so no diagnostic note accompanies it, contradicting the
claim's "empty sequence with a diagnostic note". -/
theorem c8_dead_diagnostic_counterexample :
    (get_omim_from_mediawiki_markup "no cross references").1 = [] ∧
    ¬((get_omim_from_mediawiki_markup "no cross references").2 = true) ∧
    (get_pharmgkb_from_mediawiki_markup "no cross references").1 = [] ∧
    ¬((get_pharmgkb_from_mediawiki_markup "no cross references").2 = true) := by
  refine ⟨rfl, ?_, rfl, ?_⟩ <;> decide

/-- C9: every extractor is a pure function of its input text: two runs on
the same RawMarkup yield identical results. -/
theorem c9_extractors_deterministic (t : String) :
    clean_mediawiki_markup t = clean_mediawiki_markup t ∧
    get_pmids_from_mediawiki_markup t = get_pmids_from_mediawiki_markup t ∧
    get_population_diversity_from_mediawiki_markup t =
      get_population_diversity_from_mediawiki_markup t ∧
    get_pharmgkb_from_mediawiki_markup t =
      get_pharmgkb_from_mediawiki_markup t ∧
    get_omim_from_mediawiki_markup t = get_omim_from_mediawiki_markup t ∧
    get_rsnum_from_mediawiki_markup t = get_rsnum_from_mediawiki_markup t :=
  ⟨rfl, rfl, rfl, rfl, rfl, rfl⟩

/-- C10: a `geno`-prefixed field with zero `=` characters (`genotype`) or
with two (`geno1=(A;A)=x`) makes the two-way unpacking raise, so the
diversity extractor's exception branch is reachable. -/
theorem c10_genotype_unpacking_raises :
    get_population_diversity_from_mediawiki_markup
        "\x7b\x7b population diversity| genotype | HapMap" =
      (some (Except.error ()), false) ∧
    get_population_diversity_from_mediawiki_markup
        "\x7b\x7b population diversity| geno1=(A;A)=x | HapMap" =
      (some (Except.error ()), false) :=
  ⟨rfl, rfl⟩

end Snpedia
